import Mathlib

/-!
Shallow embedding of the `oula-shares-push` reconciliation loop
(`main.go`, third variant: `loadLastPushedEpochs`, `pushUpdatedShareCounts`,
`getShareCounts`, plus `dal.GetMaxShareHeight` from `dal/dal.go`).

Machine `int64` values (epochs, share counts) are modelled as `Int`;
the Go `map[string]int64` watermark is modelled as an association list
observed only through lookup; SQL queries are modelled as pure functions
over the in-memory table `List Row`; the fallibility of the max-epoch
query, of each per-chain range query and of each individual push to the
gateway is modelled by an explicit environment of boolean outcomes.
-/

namespace SharesPush

/-- A row of the `shares_epoch_counts` table: `(chain, epoch, share_count)`. -/
structure Row where
  chain : String
  epoch : Int
  count : Int
deriving DecidableEq

/-- The two metric series pushed by `pushUpdatedShareCounts`:
`shares_epoch_count` and `shares_latest_nonzero`. -/
inductive Series where
  | epochCount
  | latestNonzero
deriving DecidableEq

/-- One push attempt to the gateway: which series, the chain label, the epoch
it concerns (for `latestNonzero` this is the chain's current max epoch), the
gauge value, and whether the push succeeded (`ok`). -/
structure Emission where
  series : Series
  chain : String
  epoch : Int
  value : Int
  ok : Bool
deriving DecidableEq

/-- The in-memory `lastPushed` map (chain → watermark epoch), modelled as an
association list where an assignment shadows earlier entries; it is observed
only through `wmGet`. -/
abbrev WMap := List (String × Int)

/-- Lookup in the `lastPushed` map (`lastEpoch, exists := lastPushed[chain]`). -/
def wmGet (m : WMap) (c : String) : Option Int :=
  (m.find? (fun p => p.1 == c)).map (fun p => p.2)

/-- The map assignment `lastPushed[ce.Chain] = epoch` (main.go line 449). -/
def wmSet (m : WMap) (c : String) (e : Int) : WMap := (c, e) :: m

/-- The watermark value the code computes: the stored epoch, or the floor 0
when the chain has never been seen (`if !exists { lastEpoch = 0 }`). -/
def wval (m : WMap) (c : String) : Int := (wmGet m c).getD 0

/-- Outcomes of the external calls a tick makes: whether the initial
`MAX(epoch) GROUP BY chain` query (and its row iteration) succeeds, whether
scanning a given chain's row of that result succeeds, whether that chain's
range query `getShareCounts` succeeds, and whether each individual push to
the gateway succeeds. -/
structure Env where
  queryMaxOk : Bool
  scanOk : String → Bool
  rangeOk : String → Bool
  pushLatestOk : String → Bool
  pushEpochOk : String → Int → Bool

/-- The distinct chains of the table, as produced by `GROUP BY chain`. -/
def chainNames (tbl : List Row) : List String := (tbl.map (fun r => r.chain)).dedup

/-- `MAX(epoch)` over one chain's rows (no positivity filter): the value the
query in `loadLastPushedEpochs` / `pushUpdatedShareCounts` returns. -/
def maxEpochOf (tbl : List Row) (c : String) : Option Int :=
  ((tbl.filter (fun r => r.chain == c)).map (fun r => r.epoch)).max?

/-- `MAX(epoch)` over one chain's rows restricted to `share_count > 0`:
the query of `dal.GetMaxShareHeight` (dal/dal.go line 62). -/
def maxPositiveEpoch (tbl : List Row) (c : String) : Option Int :=
  ((tbl.filter (fun r => r.chain == c && decide (0 < r.count))).map (fun r => r.epoch)).max?

/-- One row of the `SELECT chain, MAX(epoch) ... GROUP BY chain` result. -/
structure ChainEpoch where
  chain : String
  maxEpoch : Int
deriving DecidableEq

/-- The `chains` slice built in `pushUpdatedShareCounts` (lines 349-360). -/
def chainsOf (tbl : List Row) : List ChainEpoch :=
  (chainNames tbl).filterMap (fun c => (maxEpochOf tbl c).map (fun m => ⟨c, m⟩))

/-- `loadLastPushedEpochs` (main.go lines 307-332): seeds the watermark map
with each chain's `MAX(epoch)` — note: no `share_count > 0` filter. -/
def loadLastPushedEpochs (tbl : List Row) : WMap :=
  (chainsOf tbl).map (fun ce => (ce.chain, ce.maxEpoch))

/-- The table's recorded count at `(chain, epoch)` (last matching row wins,
as repeated map insertion would). -/
def tblCount (tbl : List Row) (c : String) (ep : Int) : Option Int :=
  ((tbl.filter (fun r => r.chain == c && r.epoch == ep)).getLast?).map (fun r => r.count)

/-- The map built by `getShareCounts(db, chain, start, end)` (lines 456-481),
looked up at `ep`: rows of `chain` with `epoch BETWEEN start AND end`. -/
def rangeCount (tbl : List Row) (c : String) (s e ep : Int) : Option Int :=
  ((tbl.filter (fun r =>
      r.chain == c && decide (s ≤ r.epoch) && decide (r.epoch ≤ e) && r.epoch == ep)).getLast?).map
    (fun r => r.count)

/-- The code's defaulted lookup `shareCount, exists := shareCounts[epoch];
if !exists { shareCount = 0 }`. -/
def cntOf (tbl : List Row) (c : String) (s e : Int) : Int → Int :=
  fun ep => (rangeCount tbl c s e ep).getD 0

/-- The epochs `start, start+1, ..., end` walked by the per-epoch loop. -/
def rangeList (s e : Int) : List Int :=
  (List.range (e + 1 - s).toNat).map (fun i : Nat => s + (i : Int))

/-- The per-epoch loop of `pushUpdatedShareCounts` (lines 417-450): skip
zero counts; on push failure continue without advancing; on success assign
`lastPushed[chain] = epoch`. Returns the updated map and the emissions
attempted, in order. -/
def epochLoop (cnt : Int → Int) (okF : Int → Bool) (chain : String) :
    List Int → WMap → WMap × List Emission
  | [], wm => (wm, [])
  | ep :: rest, wm =>
    if cnt ep = 0 then epochLoop cnt okF chain rest wm
    else
      let ok := okF ep
      let r := epochLoop cnt okF chain rest (if ok then wmSet wm chain ep else wm)
      (r.1, ⟨Series.epochCount, chain, ep, cnt ep, ok⟩ :: r.2)

/-- Processing of one chain inside a tick (lines 366-450): skip when
`currentMax <= lastEpoch`; skip when the range query fails; push
`shares_latest_nonzero` when the count at `currentMax` is non-zero, and on
failure of that push skip the rest of the chain (`continue`); otherwise run
the per-epoch loop over `[lastEpoch+1, currentMax]`. -/
def processChain (env : Env) (tbl : List Row) (wm : WMap) (ce : ChainEpoch) :
    WMap × List Emission :=
  let lastE := wval wm ce.chain
  if ce.maxEpoch ≤ lastE then (wm, [])
  else if env.rangeOk ce.chain then
    let s := lastE + 1
    let e := ce.maxEpoch
    let cnt := cntOf tbl ce.chain s e
    let eps := rangeList s e
    if cnt e = 0 then epochLoop cnt (env.pushEpochOk ce.chain) ce.chain eps wm
    else
      let okL := env.pushLatestOk ce.chain
      if okL then
        let r := epochLoop cnt (env.pushEpochOk ce.chain) ce.chain eps wm
        (r.1, ⟨Series.latestNonzero, ce.chain, e, cnt e, okL⟩ :: r.2)
      else (wm, [⟨Series.latestNonzero, ce.chain, e, cnt e, okL⟩])
  else (wm, [])

/-- The per-chain loop of a tick, threading the watermark map and
concatenating the emissions in processing order. -/
def runChains (env : Env) (tbl : List Row) : List ChainEpoch → WMap → WMap × List Emission
  | [], wm => (wm, [])
  | ce :: ces, wm =>
    let r := processChain env tbl wm ce
    let rest := runChains env tbl ces r.1
    (rest.1, r.2 ++ rest.2)

/-- `pushUpdatedShareCounts` (lines 335-454): returns an error exactly when
the initial max-epoch query (or its row iteration) fails; otherwise processes
every scannable chain and returns the updated map and the attempted
emissions. -/
def pushUpdatedShareCounts (env : Env) (tbl : List Row) (wm : WMap) :
    Except Unit (WMap × List Emission) :=
  if env.queryMaxOk then
    Except.ok (runChains env tbl ((chainsOf tbl).filter (fun ce => env.scanOk ce.chain)) wm)
  else Except.error ()

/-- The watermark map after one tick, as seen by the caller (`main`): on a
tick-level error the map is left as it was. -/
def tickWm (env : Env) (tbl : List Row) (wm : WMap) : WMap :=
  match pushUpdatedShareCounts env tbl wm with
  | Except.ok r => r.1
  | Except.error _ => wm

/-- The emissions attempted during one tick (none on a tick-level error). -/
def tickEms (env : Env) (tbl : List Row) (wm : WMap) : List Emission :=
  match pushUpdatedShareCounts env tbl wm with
  | Except.ok r => r.2
  | Except.error _ => []

/-- A sequence of ticks, each with its own snapshot of the table and its own
external-call outcomes. -/
def runTicks : List (Env × List Row) → WMap → WMap
  | [], wm => wm
  | (env, tbl) :: rest, wm => runTicks rest (tickWm env tbl wm)

/-- The command-line flags of the third variant (lines 229-233): `none`
means the flag was not supplied on the command line. -/
structure Flags where
  mysqlDSN : Option String
  pushGateway : Option String

/-- The resolved DSN: `flag.String("mysqlDSN", "", ...)` has default `""`. -/
def resolvedDSN (f : Flags) : String := f.mysqlDSN.getD ""

/-- The resolved gateway URL: `flag.String("pushGateway",
"http://localhost:9091", ...)` has a non-empty default. -/
def resolvedPushGateway (f : Flags) : String :=
  f.pushGateway.getD "http://localhost:9091"

/-- The startup check (lines 260-262): the process dies at startup exactly
when a resolved value is the empty string. -/
def startupFatal (f : Flags) : Bool :=
  resolvedDSN f == "" || resolvedPushGateway f == ""

/-- Last element of a list if any, else a default: used to state what the
per-epoch loop leaves in the watermark map. -/
def lastOr (l : List Int) (dflt : Option Int) : Option Int :=
  l.foldl (fun _ x => some x) dflt

/-- Projection of an emission that forgets whether the push succeeded:
what was attempted, not how it fared. -/
def emKey (em : Emission) : Series × String × Int × Int :=
  (em.series, em.chain, em.epoch, em.value)

/-! ### Concrete inputs used to evaluate the model -/

/-- All external calls succeed. -/
def envAllOk : Env :=
  ⟨true, fun _ => true, fun _ => true, fun _ => true, fun _ _ => true⟩

/-- All external calls succeed except the per-epoch push of epoch 2 on
chain `"a"`. -/
def envFailEp2 : Env :=
  ⟨true, fun _ => true, fun _ => true, fun _ => true, fun c ep => c != "a" || ep != 2⟩

/-- All external calls succeed except the `shares_latest_nonzero` push of
chain `"a"`. -/
def envLatestFailA : Env :=
  ⟨true, fun _ => true, fun _ => true, fun c => c != "a", fun _ _ => true⟩

/-- The initial max-epoch query of the tick fails. -/
def envQueryFail : Env :=
  ⟨false, fun _ => true, fun _ => true, fun _ => true, fun _ _ => true⟩

/-- Chain `"a"` with positive counts at epochs 1, 2, 3. -/
def tblThreePos : List Row := [⟨"a", 1, 5⟩, ⟨"a", 2, 7⟩, ⟨"a", 3, 9⟩]

/-- Chain `"a"` with positive counts at epochs 1 and 2 and count 0 at its
max epoch 3. -/
def tblTailZero : List Row := [⟨"a", 1, 5⟩, ⟨"a", 2, 7⟩, ⟨"a", 3, 0⟩]

/-- Chain `"a"` whose max epoch 7 has count 0 while its max positive epoch
is 5. -/
def tblSeed : List Row := [⟨"a", 5, 10⟩, ⟨"a", 7, 0⟩]

/-- Chain `"a"` with a negative recorded count. -/
def tblNeg : List Row := [⟨"a", 1, -3⟩]

/-- Two chains, one positive epoch each. -/
def tblTwo : List Row := [⟨"a", 1, 5⟩, ⟨"b", 1, 4⟩]

/-- The spec's scenario: chain `"alpha"`, counts `{5: 10, 6: 0, 7: 3}`. -/
def tblAlpha : List Row := [⟨"alpha", 5, 10⟩, ⟨"alpha", 6, 0⟩, ⟨"alpha", 7, 3⟩]

/-! ### Basic lemmas about the watermark map -/

theorem wmGet_wmSet_self (m : WMap) (c : String) (e : Int) :
    wmGet (wmSet m c e) c = some e := by
  simp [wmGet, wmSet, List.find?]

theorem wmGet_wmSet_ne (m : WMap) (c d : String) (e : Int) (h : d ≠ c) :
    wmGet (wmSet m c e) d = wmGet m d := by
  have hb : (c == d) = false := by
    simp only [beq_eq_false_iff_ne]
    exact fun hcd => h hcd.symm
  simp [wmGet, wmSet, List.find?, hb]

/-! ### lastOr -/

theorem lastOr_nil (d : Option Int) : lastOr [] d = d := rfl

theorem lastOr_cons (x : Int) (l : List Int) (d : Option Int) :
    lastOr (x :: l) d = lastOr l (some x) := rfl

theorem lastOr_cases (l : List Int) (d : Option Int) :
    lastOr l d = d ∨ ∃ x ∈ l, lastOr l d = some x := by
  induction l generalizing d with
  | nil => exact Or.inl rfl
  | cons x l ih =>
    rcases ih (some x) with h | ⟨y, hy, hly⟩
    · exact Or.inr ⟨x, List.mem_cons_self x l, by rw [lastOr_cons, h]⟩
    · exact Or.inr ⟨y, List.mem_cons_of_mem x hy, by rw [lastOr_cons, hly]⟩

/-! ### rangeList -/

theorem mem_rangeList {s e ep : Int} : ep ∈ rangeList s e ↔ s ≤ ep ∧ ep ≤ e := by
  simp only [rangeList, List.mem_map, List.mem_range]
  constructor
  · rintro ⟨i, hi, rfl⟩
    have h' : (i : Int) < e + 1 - s := Int.lt_toNat.mp hi
    omega
  · rintro ⟨h1, h2⟩
    have hc : ((ep - s).toNat : Int) = ep - s :=
      Int.toNat_of_nonneg (by omega)
    refine ⟨(ep - s).toNat, ?_, by omega⟩
    rw [Int.lt_toNat, hc]
    omega

/-! ### rangeCount agrees with the whole-table lookup inside the range -/

theorem rangeCount_eq_tblCount (tbl : List Row) (c : String) {s e ep : Int}
    (h1 : s ≤ ep) (h2 : ep ≤ e) : rangeCount tbl c s e ep = tblCount tbl c ep := by
  unfold rangeCount tblCount
  congr 1
  congr 1
  apply List.filter_congr
  intro r _
  cases hce : r.chain == c with
  | false => simp [hce]
  | true =>
    cases hep : r.epoch == ep with
    | false => simp [hce, hep]
    | true =>
      have : r.epoch = ep := by simpa using hep
      simp [hce, hep, this, h1, h2]

/-! ### The per-epoch loop -/

/-- The emissions the per-epoch loop attempts: one per epoch of the walked
range whose defaulted count is non-zero, in ascending order, independent of
the current watermark map and of the push outcomes of earlier epochs. -/
theorem epochLoop_snd (cnt : Int → Int) (okF : Int → Bool) (chain : String)
    (eps : List Int) (wm : WMap) :
    (epochLoop cnt okF chain eps wm).2 =
      eps.filterMap (fun ep =>
        if cnt ep = 0 then none
        else some ⟨Series.epochCount, chain, ep, cnt ep, okF ep⟩) := by
  induction eps generalizing wm with
  | nil => rfl
  | cons ep rest ih =>
    by_cases h : cnt ep = 0
    · simp [epochLoop, h, ih]
    · simp [epochLoop, h, ih]

/-- What the per-epoch loop leaves in the watermark map for its own chain:
the last (hence, on an ascending range, the highest) epoch whose count was
non-zero and whose push succeeded, or the prior entry when none did. -/
theorem epochLoop_fst_chain (cnt : Int → Int) (okF : Int → Bool) (chain : String)
    (eps : List Int) (wm : WMap) :
    wmGet (epochLoop cnt okF chain eps wm).1 chain =
      lastOr (eps.filter (fun ep => decide (cnt ep ≠ 0) && okF ep)) (wmGet wm chain) := by
  induction eps generalizing wm with
  | nil => rfl
  | cons ep rest ih =>
    by_cases h : cnt ep = 0
    · have hf : (decide (cnt ep ≠ 0) && okF ep) = false := by simp [h]
      simp [epochLoop, h, List.filter_cons, hf, ih]
    · cases hok : okF ep with
      | true =>
        have hstep : List.filter (fun x => decide (cnt x ≠ 0) && okF x) (ep :: rest) =
            ep :: List.filter (fun x => decide (cnt x ≠ 0) && okF x) rest := by
          simp [List.filter_cons, h, hok]
        rw [hstep, lastOr_cons]
        simp only [epochLoop, if_neg h, hok, if_true]
        rw [ih, wmGet_wmSet_self]
      | false =>
        have hstep : List.filter (fun x => decide (cnt x ≠ 0) && okF x) (ep :: rest) =
            List.filter (fun x => decide (cnt x ≠ 0) && okF x) rest := by
          simp [List.filter_cons, hok]
        rw [hstep]
        simp only [epochLoop, if_neg h, hok, Bool.false_eq_true, if_false]
        exact ih wm

/-- The per-epoch loop never touches another chain's watermark entry. -/
theorem epochLoop_fst_frame (cnt : Int → Int) (okF : Int → Bool) (chain : String)
    (eps : List Int) (wm : WMap) (d : String) (hd : d ≠ chain) :
    wmGet (epochLoop cnt okF chain eps wm).1 d = wmGet wm d := by
  induction eps generalizing wm with
  | nil => rfl
  | cons ep rest ih =>
    by_cases h : cnt ep = 0
    · simp [epochLoop, h, ih]
    · cases hok : okF ep with
      | true =>
        simp only [epochLoop, if_neg h, hok, if_true]
        rw [ih, wmGet_wmSet_ne _ _ _ _ hd]
      | false =>
        simp only [epochLoop, if_neg h, hok, if_false]
        exact ih wm

/-- Membership in the per-epoch loop's emissions, unpacked. -/
theorem mem_epochLoop_snd (cnt : Int → Int) (okF : Int → Bool) (chain : String)
    (eps : List Int) (wm : WMap) (em : Emission) :
    em ∈ (epochLoop cnt okF chain eps wm).2 ↔
      ∃ ep ∈ eps, cnt ep ≠ 0 ∧ em = ⟨Series.epochCount, chain, ep, cnt ep, okF ep⟩ := by
  rw [epochLoop_snd, List.mem_filterMap]
  constructor
  · rintro ⟨ep, hep, hsome⟩
    by_cases h : cnt ep = 0
    · rw [if_pos h] at hsome
      exact absurd hsome (by simp)
    · rw [if_neg h] at hsome
      exact ⟨ep, hep, h, (Option.some.inj hsome).symm⟩
  · rintro ⟨ep, hep, h, rfl⟩
    exact ⟨ep, hep, by rw [if_neg h]⟩

/-! ### Per-chain processing -/

/-- Processing one chain never touches another chain's watermark entry. -/
theorem processChain_fst_frame (env : Env) (tbl : List Row) (wm : WMap)
    (ce : ChainEpoch) (d : String) (hd : d ≠ ce.chain) :
    wmGet (processChain env tbl wm ce).1 d = wmGet wm d := by
  unfold processChain
  by_cases h1 : ce.maxEpoch ≤ wval wm ce.chain
  · simp [h1]
  · cases h2 : env.rangeOk ce.chain with
    | false => simp [h1, h2]
    | true =>
      by_cases h3 : cntOf tbl ce.chain (wval wm ce.chain + 1) ce.maxEpoch ce.maxEpoch = 0
      · simp [h1, h2, h3, epochLoop_fst_frame _ _ _ _ _ _ hd]
      · cases h4 : env.pushLatestOk ce.chain with
        | true => simp [h1, h2, h3, h4, epochLoop_fst_frame _ _ _ _ _ _ hd]
        | false => simp [h1, h2, h3, h4]

/-- A chain's processing depends only on that chain's external-call
outcomes: outcomes recorded for other chains are irrelevant. -/
theorem processChain_env_congr (env env' : Env) (tbl : List Row) (wm : WMap)
    (ce : ChainEpoch)
    (hr : env.rangeOk ce.chain = env'.rangeOk ce.chain)
    (hl : env.pushLatestOk ce.chain = env'.pushLatestOk ce.chain)
    (he : ∀ ep, env.pushEpochOk ce.chain ep = env'.pushEpochOk ce.chain ep) :
    processChain env tbl wm ce = processChain env' tbl wm ce := by
  have hef : env.pushEpochOk ce.chain = env'.pushEpochOk ce.chain := funext he
  unfold processChain
  rw [hr, hl, hef]

/-- A chain's processing reads the incoming watermark map only at its own
chain: maps agreeing there yield the same emissions and the same resulting
entry for that chain. -/
theorem processChain_congr_wm (env : Env) (tbl : List Row) (wm₁ wm₂ : WMap)
    (ce : ChainEpoch) (hw : wmGet wm₁ ce.chain = wmGet wm₂ ce.chain) :
    wmGet (processChain env tbl wm₁ ce).1 ce.chain
        = wmGet (processChain env tbl wm₂ ce).1 ce.chain ∧
      (processChain env tbl wm₁ ce).2 = (processChain env tbl wm₂ ce).2 := by
  have hv : wval wm₁ ce.chain = wval wm₂ ce.chain := by
    unfold wval
    rw [hw]
  unfold processChain
  rw [hv]
  by_cases h1 : ce.maxEpoch ≤ wval wm₂ ce.chain
  · simp [h1, hw]
  · cases h2 : env.rangeOk ce.chain with
    | false => simp [h1, h2, hw]
    | true =>
      by_cases h3 : cntOf tbl ce.chain (wval wm₂ ce.chain + 1) ce.maxEpoch ce.maxEpoch = 0
      · simp only [h1, h2, h3, if_true, if_false, if_pos, if_neg, not_false_iff]
        constructor
        · rw [epochLoop_fst_chain, epochLoop_fst_chain, hw]
        · rw [epochLoop_snd, epochLoop_snd]
      · cases h4 : env.pushLatestOk ce.chain with
        | true =>
          simp only [h1, h2, h3, h4, if_true, if_false, if_pos, if_neg, not_false_iff]
          constructor
          · rw [epochLoop_fst_chain, epochLoop_fst_chain, hw]
          · rw [epochLoop_snd, epochLoop_snd]
        | false => simp [h1, h2, h3, h4, hw]

/-- In the branch that walks the pending range (new data, range query
succeeded, and either the max epoch's count is zero or the latest push
succeeded), the chain's new watermark entry is exactly what the per-epoch
loop leaves. -/
theorem processChain_fst_chain (env : Env) (tbl : List Row) (wm : WMap)
    (ce : ChainEpoch)
    (h1 : ¬ ce.maxEpoch ≤ wval wm ce.chain)
    (h2 : env.rangeOk ce.chain = true)
    (h3 : cntOf tbl ce.chain (wval wm ce.chain + 1) ce.maxEpoch ce.maxEpoch = 0 ∨
          env.pushLatestOk ce.chain = true) :
    wmGet (processChain env tbl wm ce).1 ce.chain =
      lastOr ((rangeList (wval wm ce.chain + 1) ce.maxEpoch).filter
          (fun ep =>
            decide (cntOf tbl ce.chain (wval wm ce.chain + 1) ce.maxEpoch ep ≠ 0) &&
              env.pushEpochOk ce.chain ep))
        (wmGet wm ce.chain) := by
  unfold processChain
  by_cases h3' : cntOf tbl ce.chain (wval wm ce.chain + 1) ce.maxEpoch ce.maxEpoch = 0
  · simp only [h1, h2, h3', if_true, if_false, if_pos, if_neg, not_false_iff]
    rw [epochLoop_fst_chain]
  · have h4 : env.pushLatestOk ce.chain = true := h3.resolve_left h3'
    simp only [h1, h2, h3', h4, if_true, if_false, if_pos, if_neg, not_false_iff]
    rw [epochLoop_fst_chain]

/-- After processing, a chain's watermark entry is either untouched or set
to some epoch of the pending range `(lastEpoch, maxEpoch]`. -/
theorem processChain_fst_cases (env : Env) (tbl : List Row) (wm : WMap)
    (ce : ChainEpoch) :
    wmGet (processChain env tbl wm ce).1 ce.chain = wmGet wm ce.chain ∨
    ∃ ep, wmGet (processChain env tbl wm ce).1 ce.chain = some ep ∧
      wval wm ce.chain < ep ∧ ep ≤ ce.maxEpoch := by
  by_cases h1 : ce.maxEpoch ≤ wval wm ce.chain
  · left
    unfold processChain
    simp [h1]
  · cases h2 : env.rangeOk ce.chain with
    | false =>
      left
      unfold processChain
      simp [h1, h2]
    | true =>
      by_cases h3 : cntOf tbl ce.chain (wval wm ce.chain + 1) ce.maxEpoch ce.maxEpoch ≠ 0 ∧
          env.pushLatestOk ce.chain = false
      · left
        unfold processChain
        simp [h1, h2, h3.1, h3.2]
      · have h3' : cntOf tbl ce.chain (wval wm ce.chain + 1) ce.maxEpoch ce.maxEpoch = 0 ∨
            env.pushLatestOk ce.chain = true := by
          by_cases hc : cntOf tbl ce.chain (wval wm ce.chain + 1) ce.maxEpoch ce.maxEpoch = 0
          · exact Or.inl hc
          · right
            cases hL : env.pushLatestOk ce.chain with
            | true => rfl
            | false => exact absurd ⟨hc, hL⟩ h3
        rw [processChain_fst_chain env tbl wm ce h1 h2 h3']
        rcases lastOr_cases ((rangeList (wval wm ce.chain + 1) ce.maxEpoch).filter _)
            (wmGet wm ce.chain) with h | ⟨x, hx, hlx⟩
        · exact Or.inl h
        · right
          refine ⟨x, hlx, ?_⟩
          have hxr : x ∈ rangeList (wval wm ce.chain + 1) ce.maxEpoch :=
            List.mem_of_mem_filter hx
          have := mem_rangeList.mp hxr
          omega

/-- Every emission of a chain's processing carries that chain's label. -/
theorem processChain_snd_chain (env : Env) (tbl : List Row) (wm : WMap)
    (ce : ChainEpoch) :
    ∀ em ∈ (processChain env tbl wm ce).2, em.chain = ce.chain := by
  intro em hem
  unfold processChain at hem
  by_cases h1 : ce.maxEpoch ≤ wval wm ce.chain
  · simp [h1] at hem
  · cases h2 : env.rangeOk ce.chain with
    | false => simp [h1, h2] at hem
    | true =>
      by_cases h3 : cntOf tbl ce.chain (wval wm ce.chain + 1) ce.maxEpoch ce.maxEpoch = 0
      · simp only [h1, h2, h3, if_true, if_false, if_pos, if_neg, not_false_iff] at hem
        obtain ⟨ep, -, -, rfl⟩ := (mem_epochLoop_snd _ _ _ _ _ _).mp hem
        rfl
      · cases h4 : env.pushLatestOk ce.chain with
        | true =>
          simp only [h1, h2, h3, h4, if_true, if_false, if_pos, if_neg, not_false_iff,
            List.mem_cons] at hem
          rcases hem with rfl | hem
          · rfl
          · obtain ⟨ep, -, -, rfl⟩ := (mem_epochLoop_snd _ _ _ _ _ _).mp hem
            rfl
        | false =>
          simp only [h1, h2, h3, h4, if_true, if_false, if_pos, if_neg, not_false_iff,
            Bool.false_eq_true, List.mem_singleton] at hem
          subst hem
          rfl

/-- Watermark growth of one chain's processing: no entry ever shrinks. -/
theorem processChain_fst_mono (env : Env) (tbl : List Row) (wm : WMap)
    (ce : ChainEpoch) (d : String) :
    wval wm d ≤ wval (processChain env tbl wm ce).1 d := by
  by_cases hd : d = ce.chain
  · subst hd
    rcases processChain_fst_cases env tbl wm ce with h | ⟨ep, hep, hlt, -⟩
    · simp [wval, h]
    · simp only [wval, hep, Option.getD_some]
      exact le_of_lt hlt
  · simp [wval, processChain_fst_frame env tbl wm ce d hd]

/-- Watermark bound of one chain's processing: an entry at `c` stays below
`B` when it started below `B` and every row for `c` has max epoch at most
`B`. -/
theorem processChain_fst_le (env : Env) (tbl : List Row) (wm : WMap)
    (ce : ChainEpoch) (c : String) (B : Int)
    (hce : ce.chain = c → ce.maxEpoch ≤ B) (hwm : wval wm c ≤ B) :
    wval (processChain env tbl wm ce).1 c ≤ B := by
  by_cases hd : c = ce.chain
  · subst hd
    rcases processChain_fst_cases env tbl wm ce with h | ⟨ep, hep, -, hle⟩
    · simpa [wval, h] using hwm
    · simp only [wval, hep, Option.getD_some]
      exact le_trans hle (hce rfl)
  · simpa [wval, processChain_fst_frame env tbl wm ce c hd] using hwm

/-! ### The per-chain loop of a tick -/

/-- The tick's chain loop never touches a chain outside the processed list. -/
theorem runChains_fst_frame (env : Env) (tbl : List Row) (ces : List ChainEpoch)
    (wm : WMap) (d : String) (hd : ∀ ce ∈ ces, d ≠ ce.chain) :
    wmGet (runChains env tbl ces wm).1 d = wmGet wm d := by
  induction ces generalizing wm with
  | nil => rfl
  | cons ce rest ih =>
    simp only [runChains]
    rw [ih _ (fun ce' h => hd ce' (List.mem_cons_of_mem _ h)),
      processChain_fst_frame _ _ _ _ _ (hd ce (List.mem_cons_self _ _))]

/-- Every emission of the chain loop belongs to some processed chain. -/
theorem runChains_snd_chains (env : Env) (tbl : List Row) (ces : List ChainEpoch)
    (wm : WMap) :
    ∀ em ∈ (runChains env tbl ces wm).2, ∃ ce ∈ ces, em.chain = ce.chain := by
  induction ces generalizing wm with
  | nil =>
    intro em h
    simp [runChains] at h
  | cons ce rest ih =>
    intro em hem
    simp only [runChains, List.mem_append] at hem
    rcases hem with h | h
    · exact ⟨ce, List.mem_cons_self _ _, processChain_snd_chain _ _ _ _ em h⟩
    · obtain ⟨ce', hce', hc⟩ := ih _ em h
      exact ⟨ce', List.mem_cons_of_mem _ hce', hc⟩

/-- No watermark entry shrinks across the chain loop. -/
theorem runChains_fst_mono (env : Env) (tbl : List Row) (ces : List ChainEpoch)
    (wm : WMap) (d : String) :
    wval wm d ≤ wval (runChains env tbl ces wm).1 d := by
  induction ces generalizing wm with
  | nil => exact le_refl _
  | cons ce rest ih =>
    simp only [runChains]
    exact le_trans (processChain_fst_mono env tbl wm ce d) (ih _)

/-- Watermark bound across the chain loop. -/
theorem runChains_fst_le (env : Env) (tbl : List Row) (ces : List ChainEpoch)
    (wm : WMap) (c : String) (B : Int)
    (hces : ∀ ce ∈ ces, ce.chain = c → ce.maxEpoch ≤ B) (hwm : wval wm c ≤ B) :
    wval (runChains env tbl ces wm).1 c ≤ B := by
  induction ces generalizing wm with
  | nil => exact hwm
  | cons ce rest ih =>
    simp only [runChains]
    exact ih _ (fun ce' h => hces ce' (List.mem_cons_of_mem _ h))
      (processChain_fst_le env tbl wm ce c B (hces ce (List.mem_cons_self _ _)) hwm)

/-- The steady-state no-op: when every processed chain's max epoch is at or
below its watermark, the loop does nothing at all. -/
theorem runChains_skip (env : Env) (tbl : List Row) (ces : List ChainEpoch)
    (wm : WMap) (h : ∀ ce ∈ ces, ce.maxEpoch ≤ wval wm ce.chain) :
    runChains env tbl ces wm = (wm, []) := by
  induction ces with
  | nil => rfl
  | cons ce rest ih =>
    have hpc : processChain env tbl wm ce = (wm, []) := by
      unfold processChain
      simp [h ce (List.mem_cons_self _ _)]
    simp only [runChains, hpc]
    rw [ih (fun ce' h' => h ce' (List.mem_cons_of_mem _ h'))]
    rfl

/-- When the processed chains have pairwise distinct names, the emissions
labelled with chain `ce.chain` and the final watermark entry of `ce.chain`
are exactly those of `ce`'s own processing, run against the incoming map. -/
theorem runChains_single (env : Env) (tbl : List Row) (ce : ChainEpoch)
    (p : Emission → Bool) (hp : ∀ em, p em = true → em.chain = ce.chain) :
    ∀ (ces : List ChainEpoch) (wm : WMap),
      (ces.map (fun x => x.chain)).Nodup → ce ∈ ces →
      (runChains env tbl ces wm).2.filter p = (processChain env tbl wm ce).2.filter p ∧
        wmGet (runChains env tbl ces wm).1 ce.chain
          = wmGet (processChain env tbl wm ce).1 ce.chain := by
  intro ces
  induction ces with
  | nil =>
    intro wm _ hce
    cases hce
  | cons ce' rest ih =>
    intro wm hnd hce
    have hnd' : (rest.map (fun x => x.chain)).Nodup := (List.nodup_cons.mp hnd).2
    have hndh : ce'.chain ∉ rest.map (fun x => x.chain) := (List.nodup_cons.mp hnd).1
    rcases List.mem_cons.mp hce with heq | hmem
    · subst heq
      have hrest : ∀ x ∈ rest, ce.chain ≠ x.chain := by
        intro x hx hxc
        exact hndh (hxc ▸ List.mem_map_of_mem _ hx)
      constructor
      · simp only [runChains, List.filter_append]
        have h2 : ((runChains env tbl rest (processChain env tbl wm ce).1).2).filter p = [] := by
          rw [List.filter_eq_nil_iff]
          intro em hem hpem
          obtain ⟨cex, hcex, hchain⟩ := runChains_snd_chains _ _ _ _ em hem
          exact hrest cex hcex ((hp em hpem) ▸ hchain)
        rw [h2, List.append_nil]
      · simp only [runChains]
        exact runChains_fst_frame env tbl rest _ ce.chain hrest
    · have hcc : ce'.chain ≠ ce.chain := by
        intro heq
        exact hndh (heq ▸ List.mem_map_of_mem _ hmem)
      have hw : wmGet (processChain env tbl wm ce').1 ce.chain = wmGet wm ce.chain :=
        processChain_fst_frame env tbl wm ce' ce.chain (fun h => hcc h.symm)
      obtain ⟨ihf, ihw⟩ := ih (processChain env tbl wm ce').1 hnd' hmem
      obtain ⟨cw, cems⟩ := processChain_congr_wm env tbl (processChain env tbl wm ce').1 wm ce hw
      constructor
      · simp only [runChains, List.filter_append]
        have hh : ((processChain env tbl wm ce').2).filter p = [] := by
          rw [List.filter_eq_nil_iff]
          intro em hem hpem
          exact hcc ((processChain_snd_chain _ _ _ _ em hem) ▸ (hp em hpem) ▸ rfl)
        rw [hh, List.nil_append, ihf, cems]
      · simp only [runChains]
        rw [ihw, cw]

/-- filterMap respects pointwise agreement on the list. -/
theorem filterMapPointwise {α β : Type} (f g : α → Option β) (l : List α)
    (h : ∀ a ∈ l, f a = g a) : l.filterMap f = l.filterMap g := by
  induction l with
  | nil => rfl
  | cons a l ih =>
    rw [List.filterMap_cons, List.filterMap_cons, h a (List.mem_cons_self _ _),
      ih (fun x hx => h x (List.mem_cons_of_mem _ hx))]

/-- What a chain's processing attempts (forgetting push outcomes) does not
depend on the outcomes of that chain's per-epoch pushes, given agreement on
its range-query and latest-push outcomes and on its incoming watermark. -/
theorem processChain_snd_emKey (env env' : Env) (tbl : List Row)
    (wm₁ wm₂ : WMap) (ce : ChainEpoch)
    (hr : env.rangeOk ce.chain = env'.rangeOk ce.chain)
    (hl : env.pushLatestOk ce.chain = env'.pushLatestOk ce.chain)
    (hw : wmGet wm₁ ce.chain = wmGet wm₂ ce.chain) :
    (processChain env tbl wm₁ ce).2.map emKey
      = (processChain env' tbl wm₂ ce).2.map emKey := by
  have hv : wval wm₁ ce.chain = wval wm₂ ce.chain := by
    unfold wval
    rw [hw]
  have hloop : ∀ okF okF' : Int → Bool, ∀ wmA wmB,
      ((epochLoop (cntOf tbl ce.chain (wval wm₂ ce.chain + 1) ce.maxEpoch) okF ce.chain
          (rangeList (wval wm₂ ce.chain + 1) ce.maxEpoch) wmA).2).map emKey
        = ((epochLoop (cntOf tbl ce.chain (wval wm₂ ce.chain + 1) ce.maxEpoch) okF' ce.chain
            (rangeList (wval wm₂ ce.chain + 1) ce.maxEpoch) wmB).2).map emKey := by
    intro okF okF' wmA wmB
    rw [epochLoop_snd, epochLoop_snd, List.map_filterMap, List.map_filterMap]
    apply filterMapPointwise
    intro ep _
    by_cases h : cntOf tbl ce.chain (wval wm₂ ce.chain + 1) ce.maxEpoch ep = 0
    · simp [h]
    · simp [h, emKey]
  unfold processChain
  rw [hv, hr, hl]
  by_cases h1 : ce.maxEpoch ≤ wval wm₂ ce.chain
  · simp [h1]
  · cases h2 : env'.rangeOk ce.chain with
    | false => simp [h1, h2]
    | true =>
      by_cases h3 : cntOf tbl ce.chain (wval wm₂ ce.chain + 1) ce.maxEpoch ce.maxEpoch = 0
      · simp only [h1, h2, h3, if_true, if_false, if_pos, if_neg, not_false_iff]
        exact hloop _ _ _ _
      · cases h4 : env'.pushLatestOk ce.chain with
        | true =>
          simp only [h1, h2, h3, h4, if_true, if_false, if_pos, if_neg, not_false_iff,
            List.map_cons]
          rw [hloop (env.pushEpochOk ce.chain) (env'.pushEpochOk ce.chain) wm₁ wm₂]
        | false =>
          simp [h1, h2, h3, h4]

/-- Across the whole chain loop, what is attempted does not depend on the
per-epoch push outcomes. -/
theorem runChains_emKey (env env' : Env) (tbl : List Row)
    (hq : ∀ c, env.rangeOk c = env'.rangeOk c)
    (hl : ∀ c, env.pushLatestOk c = env'.pushLatestOk c) :
    ∀ (ces : List ChainEpoch) (wm₁ wm₂ : WMap),
      (ces.map (fun x => x.chain)).Nodup →
      (∀ ce ∈ ces, wmGet wm₁ ce.chain = wmGet wm₂ ce.chain) →
      (runChains env tbl ces wm₁).2.map emKey
        = (runChains env' tbl ces wm₂).2.map emKey := by
  intro ces
  induction ces with
  | nil =>
    intro wm₁ wm₂ _ _
    rfl
  | cons ce rest ih =>
    intro wm₁ wm₂ hnd hw
    have hnd' : (rest.map (fun x => x.chain)).Nodup := (List.nodup_cons.mp hnd).2
    have hndh : ce.chain ∉ rest.map (fun x => x.chain) := (List.nodup_cons.mp hnd).1
    simp only [runChains, List.map_append]
    have hhead := processChain_snd_emKey env env' tbl wm₁ wm₂ ce (hq ce.chain)
      (hl ce.chain) (hw ce (List.mem_cons_self _ _))
    have htail : ∀ x ∈ rest,
        wmGet (processChain env tbl wm₁ ce).1 x.chain
          = wmGet (processChain env' tbl wm₂ ce).1 x.chain := by
      intro x hx
      have hxc : x.chain ≠ ce.chain := by
        intro heq
        exact hndh (heq ▸ List.mem_map_of_mem _ hx)
      rw [processChain_fst_frame _ _ _ _ _ hxc, processChain_fst_frame _ _ _ _ _ hxc]
      exact hw x (List.mem_cons_of_mem _ hx)
    rw [hhead, ih _ _ hnd' htail]

/-! ### The per-chain max-epoch query -/

theorem mem_chainNames {tbl : List Row} {c : String} :
    c ∈ chainNames tbl ↔ ∃ r ∈ tbl, r.chain = c := by
  simp [chainNames, List.mem_dedup, List.mem_map]

theorem maxEpochOf_eq_none {tbl : List Row} {c : String} :
    maxEpochOf tbl c = none ↔ c ∉ chainNames tbl := by
  rw [maxEpochOf, List.max?_eq_none_iff, List.map_eq_nil_iff, List.filter_eq_nil_iff,
    mem_chainNames]
  constructor
  · rintro h ⟨r, hr, rfl⟩
    exact h r hr (by simp)
  · intro h r hr hrc
    exact h ⟨r, hr, by simpa using hrc⟩

theorem maxEpochOf_of_mem_chainsOf {tbl : List Row} {ce : ChainEpoch}
    (h : ce ∈ chainsOf tbl) : maxEpochOf tbl ce.chain = some ce.maxEpoch := by
  obtain ⟨c, -, hc⟩ := List.mem_filterMap.mp h
  obtain ⟨m, hm, hmk⟩ := Option.map_eq_some'.mp hc
  cases hmk
  exact hm

theorem mem_chainsOf_of_maxEpochOf {tbl : List Row} {c : String} {m : Int}
    (h : maxEpochOf tbl c = some m) : (⟨c, m⟩ : ChainEpoch) ∈ chainsOf tbl := by
  have hc : c ∈ chainNames tbl := by
    by_contra hc
    rw [← maxEpochOf_eq_none] at hc
    rw [h] at hc
    cases hc
  exact List.mem_filterMap.mpr ⟨c, hc, by rw [h]; rfl⟩

theorem chainsOf_map_chain (tbl : List Row) :
    (chainsOf tbl).map (fun ce => ce.chain) = chainNames tbl := by
  unfold chainsOf
  have h : ∀ l : List String, (∀ c ∈ l, c ∈ chainNames tbl) →
      (l.filterMap (fun c => (maxEpochOf tbl c).map
        (fun m => (⟨c, m⟩ : ChainEpoch)))).map (fun ce => ce.chain) = l := by
    intro l
    induction l with
    | nil => intro _; rfl
    | cons c l ih =>
      intro hl
      have hc : c ∈ chainNames tbl := hl c (List.mem_cons_self _ _)
      obtain ⟨m, hm⟩ : ∃ m, maxEpochOf tbl c = some m := by
        cases hme : maxEpochOf tbl c with
        | none => exact absurd (maxEpochOf_eq_none.mp hme) (by simpa using hc)
        | some m => exact ⟨m, rfl⟩
      rw [List.filterMap_cons, hm]
      simp only [Option.map_some']
      rw [List.map_cons, ih (fun x hx => hl x (List.mem_cons_of_mem _ hx))]
  exact h (chainNames tbl) (fun c hc => hc)

theorem chainsOf_nodup (tbl : List Row) :
    ((chainsOf tbl).map (fun ce => ce.chain)).Nodup := by
  rw [chainsOf_map_chain]
  exact List.nodup_dedup _

/-- Lookup in an association list with distinct keys finds the recorded
pair. -/
theorem find_assoc_nodup (c : String) (m : Int) :
    ∀ ps : List (String × Int), (ps.map Prod.fst).Nodup → (c, m) ∈ ps →
      ps.find? (fun p => p.1 == c) = some (c, m) := by
  intro ps
  induction ps with
  | nil =>
    intro _ h
    cases h
  | cons q rest ih =>
    intro hnd hm
    have hnd' : (rest.map Prod.fst).Nodup := (List.nodup_cons.mp hnd).2
    have hndh : q.1 ∉ rest.map Prod.fst := (List.nodup_cons.mp hnd).1
    rcases List.mem_cons.mp hm with heq | hmem
    · subst heq
      simp [List.find?]
    · have hq : q.1 ≠ c := by
        intro heq
        exact hndh (heq ▸ (List.mem_map_of_mem Prod.fst hmem : (c, m).1 ∈ _))
      have hb : (q.1 == c) = false := by simpa using hq
      rw [List.find?]
      rw [hb]
      exact ih hnd' hmem

/-- The seeded watermark map agrees, chain by chain, with the unfiltered
per-chain max epoch of the table it was seeded from. -/
theorem wmGet_load (tbl : List Row) (c : String) :
    wmGet (loadLastPushedEpochs tbl) c = maxEpochOf tbl c := by
  cases hme : maxEpochOf tbl c with
  | none =>
    have hc : c ∉ chainNames tbl := maxEpochOf_eq_none.mp hme
    have h : (loadLastPushedEpochs tbl).find? (fun p => p.1 == c) = none := by
      rw [List.find?_eq_none]
      intro p hp
      obtain ⟨ce, hce, hpe⟩ := List.mem_map.mp hp
      subst hpe
      simp only [beq_iff_eq]
      intro heq
      subst heq
      exact hc (chainsOf_map_chain tbl ▸ List.mem_map_of_mem _ hce)
    rw [wmGet, h]
    rfl
  | some m =>
    have hmem : ((⟨c, m⟩ : ChainEpoch)) ∈ chainsOf tbl := mem_chainsOf_of_maxEpochOf hme
    have hpair : (c, m) ∈ loadLastPushedEpochs tbl :=
      List.mem_map_of_mem (fun ce => (ce.chain, ce.maxEpoch)) hmem
    have hkeys : ((loadLastPushedEpochs tbl).map Prod.fst).Nodup := by
      have : (loadLastPushedEpochs tbl).map Prod.fst
          = (chainsOf tbl).map (fun ce => ce.chain) := by
        unfold loadLastPushedEpochs
        rw [List.map_map]
        rfl
      rw [this]
      exact chainsOf_nodup tbl
    rw [wmGet, find_assoc_nodup c m _ hkeys hpair]
    rfl

/-! ### Tick-level facts -/

/-- The chain rows a tick processes have pairwise distinct chain names. -/
theorem scanned_nodup (env : Env) (tbl : List Row) :
    ((((chainsOf tbl).filter (fun ce => env.scanOk ce.chain))).map
      (fun ce => ce.chain)).Nodup := by
  have hsub : List.Sublist
      ((((chainsOf tbl).filter (fun ce => env.scanOk ce.chain))).map (fun ce => ce.chain))
      ((chainsOf tbl).map (fun ce => ce.chain)) :=
    (List.filter_sublist _).map _
  exact (chainsOf_nodup tbl).sublist hsub

theorem tickWm_eq (env : Env) (tbl : List Row) (wm : WMap)
    (hq : env.queryMaxOk = true) :
    tickWm env tbl wm =
      (runChains env tbl ((chainsOf tbl).filter (fun ce => env.scanOk ce.chain)) wm).1 := by
  unfold tickWm pushUpdatedShareCounts
  rw [hq]
  rfl

theorem tickEms_eq (env : Env) (tbl : List Row) (wm : WMap)
    (hq : env.queryMaxOk = true) :
    tickEms env tbl wm =
      (runChains env tbl ((chainsOf tbl).filter (fun ce => env.scanOk ce.chain)) wm).2 := by
  unfold tickEms pushUpdatedShareCounts
  rw [hq]
  rfl

/-- A non-zero defaulted lookup pins down the stored value. -/
theorem getD_ne_zero {o : Option Int} (h : o.getD 0 ≠ 0) : o = some (o.getD 0) := by
  cases o with
  | none => exact absurd rfl h
  | some v => rfl

/-- Soundness of one chain's emissions: every emitted value is non-zero, and
every per-epoch sample reports exactly the count the table records for its
(chain, epoch). -/
theorem processChain_snd_sound (env : Env) (tbl : List Row) (wm : WMap)
    (ce : ChainEpoch) :
    ∀ em ∈ (processChain env tbl wm ce).2, em.value ≠ 0 ∧
      (em.series = Series.epochCount →
        tblCount tbl em.chain em.epoch = some em.value) := by
  intro em hem
  have hloop : ∀ wmA, em ∈ (epochLoop (cntOf tbl ce.chain (wval wm ce.chain + 1) ce.maxEpoch)
      (env.pushEpochOk ce.chain) ce.chain
      (rangeList (wval wm ce.chain + 1) ce.maxEpoch) wmA).2 → em.value ≠ 0 ∧
      (em.series = Series.epochCount →
        tblCount tbl em.chain em.epoch = some em.value) := by
    intro wmA hm
    obtain ⟨ep, hep, hne, rfl⟩ := (mem_epochLoop_snd _ _ _ _ _ _).mp hm
    obtain ⟨hs, he⟩ := mem_rangeList.mp hep
    refine ⟨hne, fun _ => ?_⟩
    have hrc : rangeCount tbl ce.chain (wval wm ce.chain + 1) ce.maxEpoch ep
        = tblCount tbl ce.chain ep := rangeCount_eq_tblCount tbl ce.chain hs he
    have hsome := getD_ne_zero (o := rangeCount tbl ce.chain (wval wm ce.chain + 1)
      ce.maxEpoch ep) hne
    rw [← hrc]
    exact hsome
  unfold processChain at hem
  by_cases h1 : ce.maxEpoch ≤ wval wm ce.chain
  · simp [h1] at hem
  · cases h2 : env.rangeOk ce.chain with
    | false => simp [h1, h2] at hem
    | true =>
      by_cases h3 : cntOf tbl ce.chain (wval wm ce.chain + 1) ce.maxEpoch ce.maxEpoch = 0
      · simp only [h1, h2, h3, if_true, if_false, if_pos, if_neg, not_false_iff] at hem
        exact hloop _ hem
      · cases h4 : env.pushLatestOk ce.chain with
        | true =>
          simp only [h1, h2, h3, h4, if_true, if_false, if_pos, if_neg, not_false_iff,
            List.mem_cons] at hem
          rcases hem with rfl | hem
          · exact ⟨h3, fun hser => by cases hser⟩
          · exact hloop _ hem
        | false =>
          simp only [h1, h2, h3, h4, if_true, if_false, if_pos, if_neg, not_false_iff,
            Bool.false_eq_true, List.mem_singleton] at hem
          subst hem
          exact ⟨h3, fun hser => by cases hser⟩

/-- Soundness of a whole chain loop's emissions. -/
theorem runChains_snd_sound (env : Env) (tbl : List Row) (ces : List ChainEpoch)
    (wm : WMap) :
    ∀ em ∈ (runChains env tbl ces wm).2, em.value ≠ 0 ∧
      (em.series = Series.epochCount →
        tblCount tbl em.chain em.epoch = some em.value) := by
  induction ces generalizing wm with
  | nil =>
    intro em hem
    simp [runChains] at hem
  | cons ce rest ih =>
    intro em hem
    simp only [runChains, List.mem_append] at hem
    rcases hem with h | h
    · exact processChain_snd_sound env tbl wm ce em h
    · exact ih _ em h

/-! ### Claims -/

/-- C2, counterexample. The claim says the watermark is seeded with the
chain's max epoch having a positive share count. On the table where chain
`"a"` has count 10 at epoch 5 and count 0 at epoch 7, `loadLastPushedEpochs`
seeds the watermark with 7 (its query has no positivity filter), while the
max positive epoch (the `dal.GetMaxShareHeight` value) is 5. -/
theorem thmC2_cex :
    wmGet (loadLastPushedEpochs tblSeed) "a" = some 7 ∧
      maxPositiveEpoch tblSeed "a" = some 5 ∧
      (some (7 : Int) ≠ some (5 : Int)) := by
  decide

/-- C2, amended. At startup each chain's watermark is seeded, from a single
read, with the chain's maximum recorded epoch regardless of the sign of its
count (it coincides with the max positive epoch only when the maximal epoch
itself has a positive count); pre-existing history is thereby skipped. -/
theorem thmC2 (tbl : List Row) (c : String) :
    wmGet (loadLastPushedEpochs tbl) c = maxEpochOf tbl c :=
  wmGet_load tbl c

/-- C3, counterexample. The claimed invariant `watermark ≤ max positive
epoch` is already broken at startup immediately after seeding: on `tblSeed`
the seeded watermark of chain `"a"` is 7 while its max positive epoch is 5. -/
theorem thmC3_cex :
    wval (loadLastPushedEpochs tblSeed) "a" = 7 ∧
      maxPositiveEpoch tblSeed "a" = some 5 ∧
      ¬ wval (loadLastPushedEpochs tblSeed) "a" ≤ 5 := by
  decide

/-- C3, amended. The invariant that holds is `watermark ≤ max recorded
epoch` (no positivity filter): it holds with equality right after seeding,
and one tick preserves it for every chain (against the tick's snapshot). -/
theorem thmC3 :
    (∀ (tbl : List Row) (c : String),
      wval (loadLastPushedEpochs tbl) c ≤ (maxEpochOf tbl c).getD 0) ∧
    (∀ (env : Env) (tbl : List Row) (wm : WMap) (c : String),
      wval wm c ≤ (maxEpochOf tbl c).getD 0 →
      wval (tickWm env tbl wm) c ≤ (maxEpochOf tbl c).getD 0) := by
  constructor
  · intro tbl c
    unfold wval
    rw [wmGet_load]
  · intro env tbl wm c hwm
    cases hq : env.queryMaxOk with
    | false =>
      have h : tickWm env tbl wm = wm := by
        unfold tickWm pushUpdatedShareCounts
        rw [hq]
        rfl
      rw [h]
      exact hwm
    | true =>
      rw [tickWm_eq env tbl wm hq]
      refine runChains_fst_le env tbl _ wm c _ ?_ hwm
      intro ce hce hcec
      have hmem := maxEpochOf_of_mem_chainsOf (List.mem_filter.mp hce).1
      rw [hcec] at hmem
      rw [hmem]
      simp

/-- C3, witness for the amended theorem: the seeding bound on `tblSeed` and
the tick-preservation step on a concrete map. -/
theorem thmC3_wit :
    wval (loadLastPushedEpochs tblSeed) "a" ≤ (maxEpochOf tblSeed "a").getD 0 ∧
      wval (tickWm envAllOk tblSeed [("a", 0)]) "a" ≤ (maxEpochOf tblSeed "a").getD 0 :=
  ⟨thmC3.1 tblSeed "a", thmC3.2 envAllOk tblSeed [("a", 0)] "a" (by decide)⟩

/-- C4, counterexample. The claim says epochs with non-positive (zero or
negative) counts are never individually emitted. The code only skips counts
equal to zero: on a table whose only row has count `-3`, the tick emits the
per-epoch sample with value `-3`. -/
theorem thmC4_cex :
    (⟨Series.epochCount, "a", 1, -3, true⟩ : Emission) ∈ tickEms envAllOk tblNeg [] ∧
      ((-3 : Int) < 0) := by
  decide

/-- C4, amended. No sample of either series is ever emitted with value
zero, and a per-epoch sample always reports exactly the (non-zero, possibly
negative) count the source records for its chain and epoch — so an epoch
with count exactly zero is never individually emitted, while negative
counts are emitted. -/
theorem thmC4 (env : Env) (tbl : List Row) (wm : WMap) (em : Emission)
    (hem : em ∈ tickEms env tbl wm) :
    em.value ≠ 0 ∧
      (em.series = Series.epochCount →
        tblCount tbl em.chain em.epoch = some em.value) := by
  cases hq : env.queryMaxOk with
  | false =>
    have h : tickEms env tbl wm = [] := by
      unfold tickEms pushUpdatedShareCounts
      rw [hq]
      rfl
    rw [h] at hem
    cases hem
  | true =>
    rw [tickEms_eq env tbl wm hq] at hem
    exact runChains_snd_sound env tbl _ wm em hem

/-- C4, witness: the amended theorem applied to the spec's `"alpha"`
scenario at the epoch-5 sample. -/
theorem thmC4_wit :
    (⟨Series.epochCount, "alpha", 5, 10, true⟩ : Emission)
        ∈ tickEms envAllOk tblAlpha [("alpha", 0)] ∧
      ((10 : Int) ≠ 0 ∧
        ((Series.epochCount = Series.epochCount) →
          tblCount tblAlpha "alpha" 5 = some 10)) :=
  ⟨by decide, thmC4 envAllOk tblAlpha [("alpha", 0)]
    ⟨Series.epochCount, "alpha", 5, 10, true⟩ (by decide)⟩

/-- The `shares_latest_nonzero` emissions of one chain's processing, in the
branch with new data and a successful range query: exactly one sample (with
the max epoch's defaulted count) when that count is non-zero, none
otherwise. -/
theorem processChain_latest_filter (env : Env) (tbl : List Row) (wm : WMap)
    (ce : ChainEpoch)
    (h1 : ¬ ce.maxEpoch ≤ wval wm ce.chain) (h2 : env.rangeOk ce.chain = true) :
    (processChain env tbl wm ce).2.filter
        (fun em => decide (em.series = Series.latestNonzero) && (em.chain == ce.chain))
      = if cntOf tbl ce.chain (wval wm ce.chain + 1) ce.maxEpoch ce.maxEpoch = 0 then []
        else [⟨Series.latestNonzero, ce.chain, ce.maxEpoch,
            cntOf tbl ce.chain (wval wm ce.chain + 1) ce.maxEpoch ce.maxEpoch,
            env.pushLatestOk ce.chain⟩] := by
  have hfl : ∀ (wmA : WMap) (okF : Int → Bool),
      ((epochLoop (cntOf tbl ce.chain (wval wm ce.chain + 1) ce.maxEpoch)
          okF ce.chain (rangeList (wval wm ce.chain + 1) ce.maxEpoch) wmA).2).filter
        (fun em => decide (em.series = Series.latestNonzero) && (em.chain == ce.chain))
        = [] := by
    intro wmA okF
    rw [List.filter_eq_nil_iff]
    intro em hem hpem
    obtain ⟨ep, -, -, rfl⟩ := (mem_epochLoop_snd _ _ _ _ _ _).mp hem
    simp at hpem
  unfold processChain
  by_cases h3 : cntOf tbl ce.chain (wval wm ce.chain + 1) ce.maxEpoch ce.maxEpoch = 0
  · rw [if_pos h3]
    simp only [h1, h2, h3, if_true, if_false, if_pos, if_neg, not_false_iff]
    exact hfl _ _
  · rw [if_neg h3]
    cases h4 : env.pushLatestOk ce.chain with
    | true =>
      simp only [h1, h2, h3, h4, if_true, if_false, if_pos, if_neg, not_false_iff,
        List.filter_cons]
      rw [hfl _ _]
      simp [h4]
    | false =>
      simp only [h1, h2, h3, h4, if_true, if_false, if_pos, if_neg, not_false_iff,
        Bool.false_eq_true, List.filter_cons]
      simp [h4]

/-- C5, confirmed. For a tick whose max-epoch query, row scan and range
query succeed for a chain `c` with max epoch `M` and a non-empty pending
range: when the source records count `v > 0` at `(c, M)`, the tick attempts
exactly one `shares_latest_nonzero` sample for `c`, with value `v` (at
epoch `M`); when the recorded count at `M` is zero or absent, the tick
attempts none for that series and chain, whatever lower epochs hold. -/
theorem thmC5 (env : Env) (tbl : List Row) (wm : WMap) (c : String) (M v : Int)
    (hq : env.queryMaxOk = true) (hs : env.scanOk c = true) (hr : env.rangeOk c = true)
    (hM : maxEpochOf tbl c = some M) (hpend : wval wm c < M) :
    (0 < v → tblCount tbl c M = some v →
      (tickEms env tbl wm).filter
          (fun em => decide (em.series = Series.latestNonzero) && (em.chain == c))
        = [⟨Series.latestNonzero, c, M, v, env.pushLatestOk c⟩]) ∧
    ((tblCount tbl c M = some 0 ∨ tblCount tbl c M = none) →
      (tickEms env tbl wm).filter
          (fun em => decide (em.series = Series.latestNonzero) && (em.chain == c))
        = []) := by
  have hce : (⟨c, M⟩ : ChainEpoch) ∈ (chainsOf tbl).filter (fun ce => env.scanOk ce.chain) :=
    List.mem_filter.mpr ⟨mem_chainsOf_of_maxEpochOf hM, hs⟩
  have hp : ∀ em : Emission,
      (decide (em.series = Series.latestNonzero) && (em.chain == c)) = true →
      em.chain = (⟨c, M⟩ : ChainEpoch).chain := by
    intro em h
    rw [Bool.and_eq_true] at h
    simpa using h.2
  have hsingle := runChains_single env tbl ⟨c, M⟩
    (fun em => decide (em.series = Series.latestNonzero) && (em.chain == c)) hp
    ((chainsOf tbl).filter (fun ce => env.scanOk ce.chain)) wm (scanned_nodup env tbl) hce
  have hems : (tickEms env tbl wm).filter
      (fun em => decide (em.series = Series.latestNonzero) && (em.chain == c))
      = (processChain env tbl wm ⟨c, M⟩).2.filter
        (fun em => decide (em.series = Series.latestNonzero) && (em.chain == c)) := by
    rw [tickEms_eq env tbl wm hq]
    exact hsingle.1
  have h1 : ¬ ((⟨c, M⟩ : ChainEpoch).maxEpoch ≤ wval wm (⟨c, M⟩ : ChainEpoch).chain) :=
    not_le.mpr hpend
  have hlf := processChain_latest_filter env tbl wm ⟨c, M⟩ h1 hr
  have hcnt : cntOf tbl c (wval wm c + 1) M M = (tblCount tbl c M).getD 0 := by
    unfold cntOf
    rw [rangeCount_eq_tblCount tbl c (by omega) (le_refl M)]
  constructor
  · intro hv htc
    have hcv : cntOf tbl c (wval wm c + 1) M M = v := by
      rw [hcnt, htc]
      rfl
    have h3 : ¬ cntOf tbl c (wval wm c + 1) M M = 0 := by
      rw [hcv]
      omega
    rw [hems, hlf, if_neg h3, hcv]
  · intro htc
    have h3 : cntOf tbl c (wval wm c + 1) M M = 0 := by
      rcases htc with h | h
      · rw [hcnt, h]
        rfl
      · rw [hcnt, h]
        rfl
    rw [hems, hlf, if_pos h3]

/-- C5, witness: the spec's `"alpha"` scenario — max epoch 7 has count 3,
so the tick attempts `shares_latest_nonzero` exactly once, with value 3. -/
theorem thmC5_wit :
    (tickEms envAllOk tblAlpha [("alpha", 0)]).filter
        (fun em => decide (em.series = Series.latestNonzero) && (em.chain == "alpha"))
      = [⟨Series.latestNonzero, "alpha", 7, 3, true⟩] :=
  (thmC5 envAllOk tblAlpha [("alpha", 0)] "alpha" 7 3 (by decide) (by decide) (by decide)
    (by decide) (by decide)).1 (by decide) (by decide)

/-- C6, confirmed. When every chain of the snapshot has max epoch at or
below its watermark, a tick attempts no emission at all and leaves every
watermark unchanged (the steady-state no-op path). -/
theorem thmC6 (env : Env) (tbl : List Row) (wm : WMap)
    (h : ∀ ce ∈ chainsOf tbl, ce.maxEpoch ≤ wval wm ce.chain) :
    tickWm env tbl wm = wm ∧ tickEms env tbl wm = [] := by
  cases hq : env.queryMaxOk with
  | false =>
    constructor
    · unfold tickWm pushUpdatedShareCounts
      rw [hq]
      rfl
    · unfold tickEms pushUpdatedShareCounts
      rw [hq]
      rfl
  | true =>
    have hrun := runChains_skip env tbl
      ((chainsOf tbl).filter (fun ce => env.scanOk ce.chain)) wm
      (fun ce hce => h ce (List.mem_filter.mp hce).1)
    constructor
    · rw [tickWm_eq env tbl wm hq, hrun]
    · rw [tickEms_eq env tbl wm hq, hrun]

/-- C6, witness: the spec's second scenario — after the `"alpha"` tick the
watermark is 7; a tick against the unchanged source attempts nothing. -/
theorem thmC6_wit :
    tickWm envAllOk tblAlpha [("alpha", 7)] = [("alpha", 7)] ∧
      tickEms envAllOk tblAlpha [("alpha", 7)] = [] :=
  thmC6 envAllOk tblAlpha [("alpha", 7)] (by decide)

/-- C7, counterexample. The claim says a watermark update stores a new
epoch only when it exceeds the current value and that out-of-order updates
leave the maximum in place. The code's update (line 449) is an
unconditional map assignment: applying it with 5 and then 3 stores 3,
regressing below the maximum observed value 5. -/
theorem thmC7_cex :
    wval (wmSet (wmSet [] "a" 5) "a" 3) "a" = 3 ∧ (3 : Int) < 5 := by
  decide

/-- C7, amended. Across any sequence of ticks every chain's watermark is
non-decreasing: although the update is an unconditional assignment with no
max semantics (out-of-order application would regress), the code applies it
only along the ascending walk of the pending range, each stored epoch
exceeding the chain's pre-tick watermark. -/
theorem thmC7 (ticks : List (Env × List Row)) (wm : WMap) (c : String) :
    wval wm c ≤ wval (runTicks ticks wm) c := by
  induction ticks generalizing wm with
  | nil => exact le_refl _
  | cons t rest ih =>
    obtain ⟨env, tbl⟩ := t
    refine le_trans ?_ (ih (tickWm env tbl wm))
    cases hq : env.queryMaxOk with
    | false =>
      have h : tickWm env tbl wm = wm := by
        unfold tickWm pushUpdatedShareCounts
        rw [hq]
        rfl
      rw [h]
    | true =>
      rw [tickWm_eq env tbl wm hq]
      exact runChains_fst_mono env tbl _ wm c

/-- C1, counterexample. Chain `"a"` has counts 5, 7, 9 at epochs 1, 2, 3
and watermark 0; only the per-epoch push of epoch 2 fails, and epoch 1 (the
only positive epoch below 2) succeeds. The claim predicts a post-tick
watermark of 1 (the highest contiguous successfully-emitted epoch below 2)
so that epoch 2 is retried. The code instead continues past the failure,
pushes epoch 3 successfully and stores watermark 3: the next pending range
starts at 4 and epoch 2 is never retried. -/
theorem thmC1_cex :
    tickEms envFailEp2 tblThreePos [("a", 0)] =
      [⟨Series.latestNonzero, "a", 3, 9, true⟩,
        ⟨Series.epochCount, "a", 1, 5, true⟩,
        ⟨Series.epochCount, "a", 2, 7, false⟩,
        ⟨Series.epochCount, "a", 3, 9, true⟩] ∧
      wmGet (tickWm envFailEp2 tblThreePos [("a", 0)]) "a" = some 3 ∧
      ((3 : Int) ≠ 1) := by
  decide

/-- C1, amended. If the per-epoch push of epoch `k` fails, every positive
epoch strictly below `k` in the range succeeds, no epoch strictly above `k`
is successfully pushed (zero count or failed push), and the chain is not
skipped by a failed latest push, then after the tick the chain's watermark
entry equals the last positive epoch strictly below `k` of the walked range
(unchanged when there is none) — in particular it stays strictly below `k`,
so epoch `k` lies in the next tick's pending range and is retried. Without
the no-success-above-`k` condition the watermark can jump past `k`
(thmC1_cex). -/
theorem thmC1 (env : Env) (tbl : List Row) (wm : WMap) (c : String) (M k : Int)
    (hq : env.queryMaxOk = true) (hs : env.scanOk c = true) (hr : env.rangeOk c = true)
    (hM : maxEpochOf tbl c = some M) (hpend : wval wm c < M)
    (hk1 : wval wm c + 1 ≤ k) (hk2 : k ≤ M)
    (hkc : cntOf tbl c (wval wm c + 1) M k ≠ 0)
    (hkf : env.pushEpochOk c k = false)
    (hbelow : ∀ ep ∈ rangeList (wval wm c + 1) M, ep < k →
      cntOf tbl c (wval wm c + 1) M ep ≠ 0 → env.pushEpochOk c ep = true)
    (habove : ∀ ep ∈ rangeList (wval wm c + 1) M, k < ep →
      cntOf tbl c (wval wm c + 1) M ep = 0 ∨ env.pushEpochOk c ep = false)
    (hlat : cntOf tbl c (wval wm c + 1) M M = 0 ∨ env.pushLatestOk c = true) :
    wmGet (tickWm env tbl wm) c =
      lastOr ((rangeList (wval wm c + 1) M).filter
          (fun ep => decide (ep < k) && decide (cntOf tbl c (wval wm c + 1) M ep ≠ 0)))
        (wmGet wm c) ∧
      wval (tickWm env tbl wm) c < k := by
  have hce : (⟨c, M⟩ : ChainEpoch) ∈ (chainsOf tbl).filter (fun ce => env.scanOk ce.chain) :=
    List.mem_filter.mpr ⟨mem_chainsOf_of_maxEpochOf hM, hs⟩
  have hp : ∀ em : Emission, (em.chain == c) = true → em.chain = (⟨c, M⟩ : ChainEpoch).chain := by
    intro em h
    simpa using h
  have hsingle := runChains_single env tbl ⟨c, M⟩ (fun em => em.chain == c) hp
    ((chainsOf tbl).filter (fun ce => env.scanOk ce.chain)) wm (scanned_nodup env tbl) hce
  have hwmeq : wmGet (tickWm env tbl wm) c
      = wmGet (processChain env tbl wm ⟨c, M⟩).1 c := by
    rw [tickWm_eq env tbl wm hq]
    exact hsingle.2
  have h1 : ¬ ((⟨c, M⟩ : ChainEpoch).maxEpoch ≤ wval wm (⟨c, M⟩ : ChainEpoch).chain) :=
    not_le.mpr hpend
  have hpc : wmGet (processChain env tbl wm ⟨c, M⟩).1 c
      = lastOr ((rangeList (wval wm c + 1) M).filter
          (fun ep => decide (cntOf tbl c (wval wm c + 1) M ep ≠ 0) && env.pushEpochOk c ep))
        (wmGet wm c) :=
    processChain_fst_chain env tbl wm ⟨c, M⟩ h1 hr hlat
  have hfeq : (rangeList (wval wm c + 1) M).filter
        (fun ep => decide (cntOf tbl c (wval wm c + 1) M ep ≠ 0) && env.pushEpochOk c ep)
      = (rangeList (wval wm c + 1) M).filter
        (fun ep => decide (ep < k) && decide (cntOf tbl c (wval wm c + 1) M ep ≠ 0)) := by
    apply List.filter_congr
    intro ep hep
    rcases lt_trichotomy ep k with hlt | heq | hgt
    · by_cases hcz : cntOf tbl c (wval wm c + 1) M ep = 0
      · simp [hcz]
      · simp [hcz, hlt, hbelow ep hep hlt hcz]
    · subst heq
      simp [hkf, hkc]
    · rcases habove ep hep hgt with hcz | hko
      · simp [hcz]
      · simp [hko, not_lt.mpr (le_of_lt hgt)]
  have hmain : wmGet (tickWm env tbl wm) c
      = lastOr ((rangeList (wval wm c + 1) M).filter
          (fun ep => decide (ep < k) && decide (cntOf tbl c (wval wm c + 1) M ep ≠ 0)))
        (wmGet wm c) := by
    rw [hwmeq, hpc, hfeq]
  refine ⟨hmain, ?_⟩
  rcases lastOr_cases ((rangeList (wval wm c + 1) M).filter
      (fun ep => decide (ep < k) && decide (cntOf tbl c (wval wm c + 1) M ep ≠ 0)))
      (wmGet wm c) with hl | ⟨x, hx, hlx⟩
  · have : wval (tickWm env tbl wm) c = wval wm c := by
      unfold wval
      rw [hmain, hl]
    omega
  · have hxk : x < k := by
      have hpx := (List.mem_filter.mp hx).2
      rw [Bool.and_eq_true] at hpx
      exact of_decide_eq_true hpx.1
    have : wval (tickWm env tbl wm) c = x := by
      unfold wval
      rw [hmain, hlx]
      rfl
    omega

/-- C1, witness for the amended theorem: counts 5, 7, 0 at epochs 1, 2, 3,
the push of epoch 2 fails, epoch 3 has count zero: the watermark stops at
1, strictly below the failed epoch 2, which is retried next tick. -/
theorem thmC1_wit :
    wmGet (tickWm envFailEp2 tblTailZero [("a", 0)]) "a" = some 1 ∧
      wval (tickWm envFailEp2 tblTailZero [("a", 0)]) "a" < 2 := by
  have h := thmC1 envFailEp2 tblTailZero [("a", 0)] "a" 3 2 (by decide) (by decide)
    (by decide) (by decide) (by decide) (by decide) (by decide) (by decide) (by decide)
    (by decide) (by decide) (by decide)
  refine ⟨?_, h.2⟩
  rw [h.1]
  decide

/-- C8, counterexample. The claim says a failed emission — including a
failed `shares_latest_nonzero` — never prevents the remaining emissions of
the tick. With chains `"a"` and `"b"` each holding one positive pending
epoch and only `"a"`'s latest push failing, the tick attempts no per-epoch
sample at all for `"a"` (the code `continue`s to the next chain), although
`(a, 1)` has positive count 5; chain `"b"` is unaffected. -/
theorem thmC8_cex :
    tickEms envLatestFailA tblTwo [] =
      [⟨Series.latestNonzero, "a", 1, 5, false⟩,
        ⟨Series.latestNonzero, "b", 1, 4, true⟩,
        ⟨Series.epochCount, "b", 1, 4, true⟩] ∧
      (∀ em ∈ tickEms envLatestFailA tblTwo [],
        ¬ (em.series = Series.epochCount ∧ em.chain = "a")) ∧
      tblCount tblTwo "a" 1 = some 5 := by
  decide

/-- C8, amended. A failed per-epoch (`shares_epoch_count`) push never
prevents any other emission attempt of the tick: what a tick attempts
(series, chain, epoch, value) is independent of the per-epoch push
outcomes. Moreover a chain's processing depends only on its own range-query
and push outcomes, so no failure on one chain affects another. A failed
`shares_latest_nonzero` push, however, skips the rest of that chain for the
tick (thmC8_cex); its watermark is not advanced, so the skipped work is
retried next tick. -/
theorem thmC8 :
    (∀ (env env' : Env) (tbl : List Row) (wm : WMap),
      env.queryMaxOk = env'.queryMaxOk →
      (∀ c, env.scanOk c = env'.scanOk c) →
      (∀ c, env.rangeOk c = env'.rangeOk c) →
      (∀ c, env.pushLatestOk c = env'.pushLatestOk c) →
      (tickEms env tbl wm).map emKey = (tickEms env' tbl wm).map emKey) ∧
    (∀ (env env' : Env) (tbl : List Row) (wm : WMap) (ce : ChainEpoch),
      env.rangeOk ce.chain = env'.rangeOk ce.chain →
      env.pushLatestOk ce.chain = env'.pushLatestOk ce.chain →
      (∀ ep, env.pushEpochOk ce.chain ep = env'.pushEpochOk ce.chain ep) →
      processChain env tbl wm ce = processChain env' tbl wm ce) := by
  constructor
  · intro env env' tbl wm hq hscan hrange hlatest
    cases hq' : env.queryMaxOk with
    | false =>
      have h1 : tickEms env tbl wm = [] := by
        unfold tickEms pushUpdatedShareCounts
        rw [hq']
        rfl
      have h2 : tickEms env' tbl wm = [] := by
        unfold tickEms pushUpdatedShareCounts
        rw [← hq, hq']
        rfl
      rw [h1, h2]
    | true =>
      have hq'' : env'.queryMaxOk = true := by
        rw [← hq]
        exact hq'
      rw [tickEms_eq env tbl wm hq', tickEms_eq env' tbl wm hq'']
      have hflt : (chainsOf tbl).filter (fun ce => env'.scanOk ce.chain)
          = (chainsOf tbl).filter (fun ce => env.scanOk ce.chain) :=
        List.filter_congr (fun ce _ => (hscan ce.chain).symm)
      rw [hflt]
      exact runChains_emKey env env' tbl hrange hlatest _ wm wm (scanned_nodup env tbl)
        (fun ce _ => rfl)
  · intro env env' tbl wm ce hr hl he
    exact processChain_env_congr env env' tbl wm ce hr hl he

/-- C8, witness: the attempted emissions of the all-success tick and of the
tick whose push of (a, 2) fails have identical projections (and one chain's
processing is unchanged under agreement of its own outcomes). -/
theorem thmC8_wit :
    ((tickEms envAllOk tblThreePos [("a", 0)]).map emKey
        = (tickEms envFailEp2 tblThreePos [("a", 0)]).map emKey) ∧
      processChain envAllOk tblTwo [] ⟨"b", 1⟩
        = processChain envFailEp2 tblTwo [] ⟨"b", 1⟩ :=
  ⟨thmC8.1 envAllOk envFailEp2 tblThreePos [("a", 0)] rfl (fun _ => rfl) (fun _ => rfl)
      (fun _ => rfl),
    thmC8.2 envAllOk envFailEp2 tblTwo [] ⟨"b", 1⟩ rfl rfl (fun _ => rfl)⟩

/-- C9, counterexample. The claim says a process started without a remote
collector URL dies at startup. The `pushGateway` flag defaults to
`http://localhost:9091`, so omitting it resolves to a non-empty URL and the
startup check passes (given a DSN): the process runs against the default. -/
theorem thmC9_cex :
    startupFatal ⟨some "user:pw@tcp(db:3306)/ops", none⟩ = false ∧
      resolvedPushGateway ⟨some "user:pw@tcp(db:3306)/ops", none⟩
        = "http://localhost:9091" := by
  decide

/-- C9, amended. The process dies at startup exactly when a resolved flag
value is the empty string; since the collector-URL flag has a non-empty
default, omitting it never triggers the fatal check — only an explicitly
empty value does (and, with the flag omitted, the check fires exactly when
the DSN resolves empty). -/
theorem thmC9 (f : Flags) :
    (startupFatal f = true ↔ (resolvedDSN f = "" ∨ resolvedPushGateway f = "")) ∧
    (f.pushGateway = none → (startupFatal f = true ↔ resolvedDSN f = "")) := by
  have hfatal : startupFatal f = true ↔ (resolvedDSN f = "" ∨ resolvedPushGateway f = "") := by
    unfold startupFatal
    rw [Bool.or_eq_true]
    simp
  refine ⟨hfatal, fun h => ?_⟩
  have hgw : resolvedPushGateway f = "http://localhost:9091" := by
    unfold resolvedPushGateway
    rw [h]
    rfl
  have hne : resolvedPushGateway f ≠ "" := by
    rw [hgw]
    decide
  rw [hfatal]
  constructor
  · intro hor
    exact hor.resolve_right hne
  · exact Or.inl

/-- C9, witness: with the collector-URL flag omitted, the fatal check fires
exactly when the DSN resolves empty. -/
theorem thmC9_wit :
    startupFatal ⟨some "user:pw@tcp(db:3306)/ops", none⟩ = true ↔
      resolvedDSN ⟨some "user:pw@tcp(db:3306)/ops", none⟩ = "" :=
  (thmC9 ⟨some "user:pw@tcp(db:3306)/ops", none⟩).2 rfl

/-- C10, confirmed. `pushUpdatedShareCounts` reports an error exactly when
the initial max-epoch query or its row iteration fails — a path taken
before any watermark is touched, so the map is unchanged and nothing was
emitted; in every other situation, including failed range queries and
failed pushes, it reports success, so the caller cannot tell a clean tick
from one with per-unit failures. -/
theorem thmC10 (env : Env) (tbl : List Row) (wm : WMap) :
    ((pushUpdatedShareCounts env tbl wm = Except.error ()) ↔ env.queryMaxOk = false) ∧
    (env.queryMaxOk = false → tickWm env tbl wm = wm ∧ tickEms env tbl wm = []) := by
  cases hq : env.queryMaxOk with
  | false =>
    refine ⟨⟨fun _ => rfl, fun _ => ?_⟩, fun _ => ⟨?_, ?_⟩⟩
    · unfold pushUpdatedShareCounts
      rw [hq]
      rfl
    · unfold tickWm pushUpdatedShareCounts
      rw [hq]
      rfl
    · unfold tickEms pushUpdatedShareCounts
      rw [hq]
      rfl
  | true =>
    refine ⟨⟨fun herr => ?_, fun hfalse => ?_⟩, fun hfalse => ?_⟩
    · unfold pushUpdatedShareCounts at herr
      rw [hq] at herr
      simp at herr
    · cases hfalse
    · cases hfalse

/-- C10, witness: a tick whose initial query fails errors out with the
watermark map untouched and no emission attempted. -/
theorem thmC10_wit :
    tickWm envQueryFail tblAlpha [("alpha", 0)] = [("alpha", 0)] ∧
      tickEms envQueryFail tblAlpha [("alpha", 0)] = [] :=
  (thmC10 envQueryFail tblAlpha [("alpha", 0)]).2 rfl

end SharesPush
